import Mathlib

set_option maxRecDepth 4000

/-!
Verification of the container-page metric formatting and hierarchy code
(`pages/containers.go`).

The Go source is embedded shallowly:

* Machine integers (`uint64`, `int`) become `Nat`/`Int` with explicit
  wrap-around (`% 2 ^ 64`) where the source can overflow.
* `float64` values are modelled exactly: every finite nonnegative double is
  a rational number, and each Go floating-point operation first computes the
  exact rational result and then applies IEEE-754 round-to-nearest, ties to
  even, at 53 significant bits (`floatRound`).  All values reached in this
  file lie far inside the normal range of `float64`, so overflow and
  subnormal rounding never occur and are not modelled.
* Go library functions used by the source (`strings.Split`, `strconv.Atoi`,
  `path.Clean`, `path.Join`, `fmt.Sprintf` / `strconv.FormatFloat` with
  fixed 2-digit precision) are modelled from their documented semantics.
* Fallible code becomes `Option`/`Except`: integer division by zero (a Go
  runtime panic) and float division by zero (whose `uint64` conversion Go
  leaves unspecified) are mapped to `none`.
-/

attribute [local semireducible] Rat.mul Rat.add Rat.sub Rat.inv

/-! ## Model of the Go standard library pieces used by the source -/

/-- Model of `strings.Split` restricted to a one-character separator (the
source only splits on `","`, `"-"` and `"/"`): split a character list at
every occurrence of `c`.  Like Go, splitting the empty string yields one
empty piece. -/
def splitOnChar (c : Char) : List Char → List (List Char)
  | [] => [[]]
  | x :: xs =>
    if x = c then [] :: splitOnChar c xs
    else
      match splitOnChar c xs with
      | [] => [[x]]
      | y :: ys => (x :: y) :: ys

/-- String-level wrapper for `splitOnChar`, matching `strings.Split`. -/
def stringsSplit (s : String) (c : Char) : List String :=
  (splitOnChar c s.toList).map String.mk

/-- Decimal digit test, as in Go's integer parsing. -/
def isDigitChar (c : Char) : Bool :=
  decide ('0' ≤ c) && decide (c ≤ '9')

/-- Value of a list of decimal digits, most significant first. -/
def digitsToNat (l : List Char) : ℕ :=
  l.foldl (fun acc c => acc * 10 + (c.toNat - 48)) 0

/-- Parse an unsigned run of decimal digits; `none` if empty or if any
character is not a digit. -/
def parseDigits (l : List Char) : Option ℕ :=
  if l ≠ [] ∧ l.all isDigitChar then some (digitsToNat l) else none

/-- Model of Go's `strconv.Atoi` (that is, `strconv.ParseInt` at base 10
with the 64-bit `int` size): an optional sign followed by decimal digits;
errors (here `none`) on an empty string, on any non-digit character, and on
values outside `[-2^63, 2^63 - 1]`. -/
def strconvAtoi (s : String) : Option ℤ :=
  match s.toList with
  | [] => none
  | c :: rest =>
    if c = '+' then
      (parseDigits rest).bind fun n =>
        if n ≤ 2 ^ 63 - 1 then some (n : ℤ) else none
    else if c = '-' then
      (parseDigits rest).bind fun n =>
        if n ≤ 2 ^ 63 then some (-(n : ℤ)) else none
    else
      (parseDigits (c :: rest)).bind fun n =>
        if n ≤ 2 ^ 63 - 1 then some (n : ℤ) else none

/-- One step of the `path.Clean` element scan: push a normal element, drop
empty and `"."` elements, and let `".."` pop the previous element (or
survive at the front of a relative path, or vanish at the root of a rooted
path).  The accumulated stack is kept in reverse order (head = most recent
element). -/
def cleanStep (rooted : Bool) (stack : List String) (seg : String) : List String :=
  if seg = "" ∨ seg = "." then stack
  else if seg = ".." then
    match stack with
    | [] => if rooted then [] else [".."]
    | top :: rest => if top = ".." then seg :: stack else rest
  else seg :: stack

/-- Model of Go's `path.Clean`, following its documented algorithm: replace
runs of slashes by one slash, eliminate `.` elements and `..` elements
together with the non-`..` element that precedes them, eliminate `..` at the
root, and return `"."` if the result would be empty. -/
def goPathClean (p : String) : String :=
  let chars := p.toList
  let rooted : Bool := match chars with
    | '/' :: _ => true
    | _ => false
  let out := (((splitOnChar '/' chars).map String.mk).foldl (cleanStep rooted) []).reverse
  if rooted then "/" ++ String.intercalate "/" out
  else if out = [] then "." else String.intercalate "/" out

/-- Model of Go's `path.Join`: drop leading empty elements, join the rest
(including any later empty elements) with slashes, and `Clean` the result;
all-empty input yields the empty string. -/
def goPathJoin (elems : List String) : String :=
  match elems.dropWhile (fun e => e = "") with
  | [] => ""
  | l => goPathClean (String.intercalate "/" l)

/-! ## Exact model of nonnegative finite `float64` arithmetic

A nonnegative finite `float64` is an exactly representable rational
`m * 2 ^ t` with `m < 2 ^ 53`.  `floatRound` maps an exact nonnegative
rational to the nearest such value (ties to even).  All quantities reached
by the embedded code are far from the overflow and subnormal thresholds, so
the unbounded exponent here agrees with IEEE-754 `binary64`. -/

/-- Fuel-driven base-2 logarithm: `log2Fuel f n` is `⌊log₂ n⌋` whenever
`1 ≤ n < 2 ^ f` (structural in the fuel so that the kernel can evaluate
it). -/
def log2Fuel : ℕ → ℕ → ℕ
  | 0, _ => 0
  | f + 1, n => if n < 2 then 0 else log2Fuel f (n / 2) + 1

/-- Base-2 logarithm (floor), executable in the kernel; correct for every
`n < 2 ^ 256`, which covers every numerator and denominator reachable from
the embedded code (all derived from 64-bit quantities). -/
def natLog2 (n : ℕ) : ℕ := log2Fuel 256 n

/-- Round a rational to the nearest integer, ties to the even integer
(IEEE-754 `roundTiesToEven` at integer granularity). -/
def roundHalfEvenQ (x : ℚ) : ℤ :=
  if x - (⌊x⌋ : ℚ) < 1 / 2 then ⌊x⌋
  else if 1 / 2 < x - (⌊x⌋ : ℚ) then ⌊x⌋ + 1
  else if ⌊x⌋ % 2 = 0 then ⌊x⌋ else ⌊x⌋ + 1

/-- First guess of the scaling exponent `s` with `x * 2 ^ s` in
`[2 ^ 52, 2 ^ 53)`, from the bit lengths of numerator and denominator. -/
def floatScale0 (x : ℚ) : ℤ :=
  52 + (natLog2 x.den : ℤ) - (natLog2 x.num.toNat : ℤ)

/-- Scaling exponent `s` such that `x * 2 ^ s ∈ [2 ^ 52, 2 ^ 53)` for
`x > 0` (the first guess lands in `[2 ^ 51, 2 ^ 53)` and is corrected by
one when needed). -/
def floatScale (x : ℚ) : ℤ :=
  if x * (2 : ℚ) ^ floatScale0 x < 2 ^ 52 then floatScale0 x + 1 else floatScale0 x

/-- Round an exact nonnegative rational to the nearest `float64` value
(round to nearest, ties to even, 53 significant bits).  The scaled value
`x * 2 ^ floatScale x` lies in `[2 ^ 52, 2 ^ 53)` for every rational whose
numerator and denominator are below `2 ^ 256` (see `floatScale_bracket`);
the guard makes the function degrade to the identity outside this range,
which no value derived from 64-bit inputs ever reaches. -/
def floatRound (x : ℚ) : ℚ :=
  if x ≤ 0 then 0
  else if 2 ^ 52 ≤ x * (2 : ℚ) ^ floatScale x ∧ x * (2 : ℚ) ^ floatScale x < 2 ^ 53 then
    ((roundHalfEvenQ (x * (2 : ℚ) ^ floatScale x) : ℤ) : ℚ) * (2 : ℚ) ^ (-floatScale x)
  else x

/-- Conversion `float64(n)` of a `uint64` value: the exact integer, rounded
to the nearest double. -/
def floatOfNat (n : ℕ) : ℚ := floatRound (n : ℚ)

/-- A Go `float64` division: exact quotient, then rounding. -/
def floatDiv (x y : ℚ) : ℚ := floatRound (x / y)

/-- A Go `float64` multiplication: exact product, then rounding. -/
def floatMul (x y : ℚ) : ℚ := floatRound (x * y)

/-- Two-digit zero padding for the fractional part of `%.2f`. -/
def pad2 (k : ℕ) : String :=
  if k < 10 then "0" ++ Nat.repr k else Nat.repr k

/-- Model of `fmt.Sprintf("%.2f", x)` (equivalently
`strconv.FormatFloat(x, 'f', 2, 64)`) for a nonnegative double `x`: the
exact value is rounded to two decimal places with ties to even — Go's
`strconv` decimal conversion rounds exact halves toward the even digit —
and printed with exactly two fractional digits. -/
def fmtF2 (x : ℚ) : String :=
  let n := (roundHalfEvenQ (x * 100)).toNat
  Nat.repr (n / 100) ++ "." ++ pad2 (n % 100)

/-- Numerator and denominator small enough for `natLog2` to be exact; every
rational reachable from the embedded code satisfies this. -/
def sizeOK (x : ℚ) : Prop := x.num.toNat < 2 ^ 256 ∧ x.den < 2 ^ 256

/-! ## Embedding of `pages/containers.go`

Field and function names follow the Go source.  The `info` package types
(`ContainerSpec`, `ContainerStats`, `MachineInfo`, ...) are not part of the
given sources; they are embedded as plain records holding exactly the fields
this file reads, with `uint64` fields as `Nat`. -/

/-- Link for the root of the containers page, `const ContainersPage`. -/
def ContainersPage : String := "/containers/"

/-- ByteSize is `float64` in the source; here the exact-rational model. -/
abbrev ByteSize := ℚ

/-- KB - kilobyte. -/
def KB : ByteSize := 2 ^ 10

/-- MB - megabyte. -/
def MB : ByteSize := 2 ^ 20

/-- GB - gigabyte. -/
def GB : ByteSize := 2 ^ 30

/-- TB - terabyte. -/
def TB : ByteSize := 2 ^ 40

/-- PB - petabyte. -/
def PB : ByteSize := 2 ^ 50

/-- EB - exabyte. -/
def EB : ByteSize := 2 ^ 60

/-- ZB - zettabyte. -/
def ZB : ByteSize := 2 ^ 70

/-- YB - yottabyte. -/
def YB : ByteSize := 2 ^ 80

/-- Method `ByteSize.Size`: scan units downward, print `b / i` to two
decimals for the first unit `i` with `b >= i`, else print `b` itself.  The
division is a `float64` division, hence `floatDiv`. -/
def ByteSize.Size (b : ByteSize) : String :=
  ((([YB, ZB, EB, PB, TB, GB, MB, KB].find? (fun i => decide (i ≤ b))).map
    (fun i => fmtF2 (floatDiv b i))).getD (fmtF2 b))

/-- Method `ByteSize.Unit`: the same downward scan, returning the unit
suffix. -/
def ByteSize.Unit (b : ByteSize) : String :=
  if YB ≤ b then "YB"
  else if ZB ≤ b then "ZB"
  else if EB ≤ b then "EB"
  else if PB ≤ b then "PB"
  else if TB ≤ b then "TB"
  else if GB ≤ b then "GB"
  else if MB ≤ b then "MB"
  else if KB ≤ b then "KB"
  else "B"

/-- Function `printSize`: `math.MaxInt64 = 2^63 - 1` is the "unlimited"
sentinel; otherwise convert the `uint64` to `float64` and format. -/
def printSize (bytes : ℕ) : String :=
  if 2 ^ 63 - 1 ≤ bytes then "unlimited" else ByteSize.Size (floatOfNat bytes)

/-- Function `printUnit`: unit suffix, empty for the sentinel. -/
def printUnit (bytes : ℕ) : String :=
  if 2 ^ 63 - 1 ≤ bytes then "" else ByteSize.Unit (floatOfNat bytes)

/-- Body of the entry loop in `getActiveCores` (lines 119-141): the indices
one comma-separated entry inserts into the set.  A one-token entry is a
single parsed core index; a two-token entry is an inclusive range
(`for i := start; i <= end; i++`); anything else — unparsable tokens
included — is silently skipped and contributes nothing.  When the parsed
range bound `end` equals `math.MaxInt64 = 2 ^ 63 - 1`, the Go loop never
terminates: `i <= end` holds for every `int64` value and the counter wraps
at the maximum, so that case is modelled as `none` (divergence); `Atoi`
caps its results at `2 ^ 63 - 1`, so `start <= end` then holds
automatically and the loop always enters this endless regime. -/
def entryCores (corebits : String) : Option (List ℤ) :=
  match stringsSplit corebits '-' with
  | [c] =>
    match strconvAtoi c with
    | none => some []
    | some index => some [index]
  | [c1, c2] =>
    match strconvAtoi c1, strconvAtoi c2 with
    | some start, some stop =>
      if stop = 2 ^ 63 - 1 then none
      else some ((List.range (stop + 1 - start).toNat).map (fun k => start + Int.ofNat k))
    | _, _ => some []
  | _ => some []

/-- Function `getActiveCores`: split the mask on commas and accumulate each
entry's contribution in order.  The Go `map[int]bool` set becomes the list
of inserted indices (membership is what the map encodes); `none` records
that some entry's range loop diverges, after which the remaining entries
are never reached. -/
def getActiveCores (mask : String) : Option (List ℤ) :=
  (stringsSplit mask ',').foldl
    (fun activeCores corebits =>
      activeCores.bind fun l => (entryCores corebits).map (fun e => l ++ e))
    (some [])

/-- One `<span>` entry of `printMask`'s `masks` array. -/
def printMaskEntry (active : Bool) (i : ℕ) : String :=
  "<span class=\"" ++ (if active then "active-cpu" else "inactive-cpu") ++ "\">"
    ++ Nat.repr i ++ "</span>"

/-- The `masks` array built by `printMask`: one entry per core index
`0 ≤ i < numCores`, active iff the index is in the parsed set; `none` when
the call to `getActiveCores` never returns. -/
def printMaskEntries (mask : String) (numCores : ℕ) : Option (List String) :=
  (getActiveCores mask).map fun activeCores =>
    (List.range numCores).map
      (fun i => printMaskEntry (activeCores.contains (Int.ofNat i)) i)

/-- Function `printMask`: the joined HTML (of type `template.HTML` in Go),
`none` when `getActiveCores` diverges. -/
def printMask (mask : String) (numCores : ℕ) : Option String :=
  (printMaskEntries mask numCores).map (String.intercalate "&nbsp;")

/-- Field set of `info.MemorySpec` read by this file. -/
structure MemorySpec where
  Limit : ℕ
deriving DecidableEq, Repr

/-- Field set of `info.ContainerSpec` read by this file. -/
structure ContainerSpec where
  Memory : MemorySpec
  HasCpu : Bool
  HasMemory : Bool
  HasNetwork : Bool
  HasFilesystem : Bool
deriving DecidableEq, Repr

/-- Field set of `info.MemoryStats` read by this file. -/
structure MemoryStats where
  Usage : ℕ
  WorkingSet : ℕ
deriving DecidableEq, Repr

/-- Per-mount filesystem stats (`info.FsStats`); this file moves values of
this type around without reading their fields, the template later feeds
`Limit`/`Usage` to `getFsUsagePercent`. -/
structure FsStats where
  Device : String
  Limit : ℕ
  Usage : ℕ
deriving DecidableEq, Repr

/-- Field set of `info.ContainerStats` read by this file. -/
structure ContainerStats where
  Memory : MemoryStats
  Filesystem : List FsStats
deriving DecidableEq, Repr

/-- Field set of `info.MachineInfo` read by this file. -/
structure MachineInfo where
  MemoryCapacity : ℕ
  NumCores : ℕ
deriving DecidableEq, Repr

/-- Go's conversion `int(u)` of a `uint64` value (64-bit `int`,
two's-complement wrap). -/
def int64OfUInt64 (n : ℕ) : ℤ :=
  if n < 2 ^ 63 then (n : ℤ) else (n : ℤ) - 2 ^ 64

/-- Wrap-around `uint64` subtraction `a - b`, for `a, b < 2 ^ 64`. -/
def u64sub (a b : ℕ) : ℕ := (a + 2 ^ 64 - b) % 2 ^ 64

/-- Function `toMemoryPercent`: saturate the configured limit at the
machine capacity, then `int((usage * 100) / limit)` in `uint64` arithmetic
(the product wraps modulo `2 ^ 64`).  A zero saturated limit makes the Go
code panic with a division by zero, modelled as `none`. -/
def toMemoryPercent (usage : ℕ) (spec : ContainerSpec) (machine : MachineInfo) :
    Option ℤ :=
  let limit := if machine.MemoryCapacity < spec.Memory.Limit
    then machine.MemoryCapacity else spec.Memory.Limit
  if limit = 0 then none
  else some (int64OfUInt64 (usage * 100 % 2 ^ 64 / limit))

/-- Function `toMegabytes`: `float64(bytes) / (1 << 20)`. -/
def toMegabytes (bytes : ℕ) : ℚ :=
  floatDiv (floatOfNat bytes) (2 ^ 20)

/-- Function `getMemoryUsage`: `"0.0"` on an empty window, else the latest
sample's usage in megabytes to two decimals. -/
def getMemoryUsage (stats : List ContainerStats) : String :=
  match stats.getLast? with
  | none => "0.0"
  | some s => fmtF2 (toMegabytes s.Memory.Usage)

/-- Function `getMemoryUsagePercent`: `0` on an empty window, else
`toMemoryPercent` of the latest sample's usage. -/
def getMemoryUsagePercent (spec : ContainerSpec) (stats : List ContainerStats)
    (machine : MachineInfo) : Option ℤ :=
  match stats.getLast? with
  | none => some 0
  | some s => toMemoryPercent s.Memory.Usage spec machine

/-- Function `getHotMemoryPercent`: as above with the working set. -/
def getHotMemoryPercent (spec : ContainerSpec) (stats : List ContainerStats)
    (machine : MachineInfo) : Option ℤ :=
  match stats.getLast? with
  | none => some 0
  | some s => toMemoryPercent s.Memory.WorkingSet spec machine

/-- Function `getColdMemoryPercent`: as above with
`usage - workingSet` computed in `uint64` (wrapping if the working set
exceeds the usage). -/
def getColdMemoryPercent (spec : ContainerSpec) (stats : List ContainerStats)
    (machine : MachineInfo) : Option ℤ :=
  match stats.getLast? with
  | none => some 0
  | some s => toMemoryPercent (u64sub s.Memory.Usage s.Memory.WorkingSet) spec machine

/-- Function `getFsStats`: the latest sample's filesystem list, empty on an
empty window. -/
def getFsStats (stats : List ContainerStats) : List FsStats :=
  match stats.getLast? with
  | none => []
  | some s => s.Filesystem

/-- Function `getFsUsagePercent`:
`uint64((float64(used) / float64(limit)) * 100)` — two `float64`
operations, then truncation toward zero.  For `limit = 0` the division
yields an infinity or NaN whose `uint64` conversion Go leaves unspecified,
modelled as `none`. -/
def getFsUsagePercent (limit used : ℕ) : Option ℕ :=
  if limit = 0 then none
  else some ⌊floatMul (floatDiv (floatOfNat used) (floatOfNat limit)) 100⌋₊

/-- The `link` record of the pages package. -/
structure link where
  Text : String
  Link : String
deriving DecidableEq, Repr

/-- Reference to a container (`info.ContainerReference`). -/
structure ContainerReference where
  Name : String
deriving DecidableEq, Repr

/-- Result of `manager.GetContainerInfo` (`info.ContainerInfo`): the
embedded reference plus spec, the stats window, and the direct
subcontainers. -/
structure ContainerInfo where
  Spec : ContainerSpec
  Stats : List ContainerStats
  Subcontainers : List ContainerReference
  ContainerReference : ContainerReference
deriving DecidableEq, Repr

/-- Go field promotion: `cont.Name` reads the embedded reference. -/
def ContainerInfo.Name (c : ContainerInfo) : String :=
  c.ContainerReference.Name

/-- Modelled from the spec: `getContainerDisplayName` lives outside the
given sources; per the spec a child's display text is "a display name
derived from the child's reference (last path segment, or a fixed literal
for the synthesized root container)". -/
def getContainerDisplayName (ref : ContainerReference) : String :=
  match ((stringsSplit ref.Name '/').filter (fun p => p ≠ "")).getLast? with
  | some seg => seg
  | none => "root"

/-- The parent-container loop of `serveContainersPage` (lines 244-260):
split the name on `/`, start with the synthetic root entry, then for each
later index `i` with a non-empty part emit that part with link
`path.Join(ContainersPage, path.Join(pathParts[1 : i+1]...))`. -/
def parentContainers (name : String) : List link :=
  let pathParts := stringsSplit name '/'
  { Text := "root", Link := ContainersPage } ::
    (List.range' 1 (pathParts.length - 1)).filterMap
      (fun i =>
        if pathParts.getD i "" = "" then none
        else some
          { Text := pathParts.getD i ""
            Link := goPathJoin [ContainersPage,
              goPathJoin ((pathParts.drop 1).take i)] })

/-- The subcontainer-link loop of `serveContainersPage` (lines 262-269). -/
def subcontainerLinks (subs : List ContainerReference) : List link :=
  subs.map (fun sub =>
    { Text := getContainerDisplayName sub
      Link := goPathJoin [ContainersPage, sub.Name] })

/-- The template payload `pageData` assembled by `serveContainersPage`. -/
structure pageData where
  DisplayName : String
  ContainerName : String
  ParentContainers : List link
  Subcontainers : List link
  Spec : ContainerSpec
  Stats : List ContainerStats
  MachineInfo : MachineInfo
  ResourcesAvailable : Bool
  CpuAvailable : Bool
  MemoryAvailable : Bool
  NetworkAvailable : Bool
  FsAvailable : Bool
deriving DecidableEq, Repr

/-- Go's `%q` of a container name inside `fmt.Errorf` (no characters
needing escapes occur in container paths, so `%q` just double-quotes). -/
def goQuote (s : String) : String := "\"" ++ s ++ "\""

instance {ε α : Type} [DecidableEq ε] [DecidableEq α] : DecidableEq (Except ε α) :=
  fun x y =>
    match x, y with
    | Except.error a, Except.error b =>
      if h : a = b then isTrue (by rw [h])
      else isFalse (fun hc => h (Except.error.inj hc))
    | Except.ok a, Except.ok b =>
      if h : a = b then isTrue (by rw [h])
      else isFalse (fun hc => h (Except.ok.inj hc))
    | Except.error _, Except.ok _ => isFalse (fun hc => Except.noConfusion hc)
    | Except.ok _, Except.error _ => isFalse (fun hc => Except.noConfusion hc)

/-- Function `serveContainersPage`, with the manager's two fetches supplied
as `Except` results (`GetContainerInfo` is called first, then
`GetMachineInfo`) and the HTTP/template plumbing outside the model: a
container-fetch error is wrapped by `fmt.Errorf("Failed to get container %q
with error: %v", ...)`; a machine-fetch error is returned as is; otherwise
the page data is assembled (template-execution errors are only logged in
the source, so the data itself stands for the success case). -/
def serveContainersPage (containerName : String)
    (contRes : Except String ContainerInfo) (machRes : Except String MachineInfo) :
    Except String pageData :=
  match contRes with
  | Except.error e =>
    Except.error ("Failed to get container " ++ goQuote containerName
      ++ " with error: " ++ e)
  | Except.ok cont =>
    match machRes with
    | Except.error e => Except.error e
    | Except.ok machineInfo =>
      Except.ok
        { DisplayName := getContainerDisplayName cont.ContainerReference
          ContainerName := cont.Name
          ParentContainers := parentContainers cont.Name
          Subcontainers := subcontainerLinks cont.Subcontainers
          Spec := cont.Spec
          Stats := cont.Stats
          MachineInfo := machineInfo
          ResourcesAvailable := cont.Spec.HasCpu || cont.Spec.HasMemory
            || cont.Spec.HasNetwork || cont.Spec.HasFilesystem
          CpuAvailable := cont.Spec.HasCpu
          MemoryAvailable := cont.Spec.HasMemory
          NetworkAvailable := cont.Spec.HasNetwork
          FsAvailable := cont.Spec.HasFilesystem }

/-- Claim-side description of the breadcrumb trail: a synthetic root entry,
then, for each subsequent non-empty split segment paired with its index, an
entry whose text is the segment and whose link is the page root joined with
the cumulative segments `[1..i]`; empty segments are skipped and do not
break the cumulative join. -/
def breadcrumbsSpec (fullPath pageRoot : String) : List link :=
  let parts := stringsSplit fullPath '/'
  { Text := "root", Link := pageRoot } ::
    ((parts.drop 1).enumFrom 1).filterMap
      (fun p =>
        if p.2 = "" then none
        else some
          { Text := p.2
            Link := goPathJoin [pageRoot, goPathJoin ((parts.drop 1).take p.1)] })

/-- Ascending unit table used to phrase "the largest unit whose threshold
is at most the value". -/
def unitsAscending : List (ℚ × String) :=
  [(1, "B"), (KB, "KB"), (MB, "MB"), (GB, "GB"), (TB, "TB"), (PB, "PB"),
    (EB, "EB"), (ZB, "ZB"), (YB, "YB")]

/-- Claim-side unit selection: the last (largest) table entry whose
threshold is at most `v`, with raw bytes as the fallback. -/
def specLargestUnit (v : ℚ) : ℚ × String :=
  (unitsAscending.filter (fun p => decide (p.1 ≤ v))).getLastD (1, "B")

/-! ## Properties of the float model -/

theorem log2Fuel_bounds :
    ∀ f n : ℕ, n < 2 ^ f → 1 ≤ n →
      2 ^ log2Fuel f n ≤ n ∧ n < 2 ^ (log2Fuel f n + 1) := by
  intro f
  induction f with
  | zero => intro n h1 h2; simp at h1; omega
  | succ f ih =>
    intro n h1 h2
    by_cases hn : n < 2
    · rw [log2Fuel, if_pos hn]; simp; omega
    · rw [log2Fuel, if_neg hn]
      have hm1 : 1 ≤ n / 2 := by omega
      have hm2 : n / 2 < 2 ^ f := by
        have hp : 2 ^ (f + 1) = 2 ^ f * 2 := by ring
        omega
      obtain ⟨l, r⟩ := ih (n / 2) hm2 hm1
      have hpow : 2 ^ (log2Fuel f (n / 2) + 1) = 2 ^ log2Fuel f (n / 2) * 2 := by ring
      have hpow2 : 2 ^ (log2Fuel f (n / 2) + 1 + 1) = 2 ^ (log2Fuel f (n / 2) + 1) * 2 := by
        ring
      constructor
      · omega
      · omega

theorem natLog2_bounds (n : ℕ) (h1 : 1 ≤ n) (h2 : n < 2 ^ 256) :
    2 ^ natLog2 n ≤ n ∧ n < 2 ^ (natLog2 n + 1) :=
  log2Fuel_bounds 256 n h2 h1

theorem roundHalfEvenQ_intCast (k : ℤ) : roundHalfEvenQ (k : ℚ) = k := by
  unfold roundHalfEvenQ
  norm_num

theorem roundHalfEvenQ_ge_floor (x : ℚ) : ⌊x⌋ ≤ roundHalfEvenQ x := by
  unfold roundHalfEvenQ
  split_ifs <;> omega

theorem roundHalfEvenQ_nonneg (x : ℚ) (hx : 0 ≤ x) : 0 ≤ roundHalfEvenQ x := by
  have h1 : (0 : ℤ) ≤ ⌊x⌋ := Int.floor_nonneg.mpr hx
  have h2 := roundHalfEvenQ_ge_floor x
  omega

theorem roundHalfEvenQ_le_of_le (x : ℚ) (c : ℤ) (h : x ≤ (c : ℚ)) :
    roundHalfEvenQ x ≤ c := by
  have hf : ⌊x⌋ ≤ c := by
    have := Int.floor_le_floor h
    simpa using this
  have hfl : (⌊x⌋ : ℚ) ≤ x := Int.floor_le x
  unfold roundHalfEvenQ
  split_ifs with h1 h2 h3
  · exact hf
  · rcases eq_or_lt_of_le hf with he | hlt
    · exfalso
      rw [he] at h1
      have := not_lt.mp h1
      linarith
    · omega
  · exact hf
  · rcases eq_or_lt_of_le hf with he | hlt
    · exfalso
      rw [he] at h1
      have := not_lt.mp h1
      linarith
    · omega

theorem roundHalfEvenQ_bounds (x : ℚ) :
    x - 1 / 2 ≤ (roundHalfEvenQ x : ℚ) ∧ (roundHalfEvenQ x : ℚ) ≤ x + 1 / 2 := by
  have h1 : (⌊x⌋ : ℚ) ≤ x := Int.floor_le x
  have h2 : x < ⌊x⌋ + 1 := Int.lt_floor_add_one x
  unfold roundHalfEvenQ
  split_ifs with ha hb hc <;> constructor <;> push_cast <;> linarith

theorem two_q_ne_zero : (2 : ℚ) ≠ 0 := by norm_num

theorem floatScale_bracket (x : ℚ) (hx : 0 < x) (hs : sizeOK x) :
    2 ^ 52 ≤ x * (2 : ℚ) ^ floatScale x ∧ x * (2 : ℚ) ^ floatScale x < 2 ^ 53 := by
  obtain ⟨hn256, hd256⟩ := hs
  have hnum_pos : 0 < x.num := Rat.num_pos.mpr hx
  have hn1 : 1 ≤ x.num.toNat := by omega
  have hd1 : 1 ≤ x.den := x.den_pos
  obtain ⟨ha1, ha2⟩ := natLog2_bounds x.num.toNat hn1 hn256
  obtain ⟨hb1, hb2⟩ := natLog2_bounds x.den hd1 hd256
  set n := x.num.toNat with hn_def
  set d := x.den with hd_def
  set a := natLog2 n with ha_def
  set b := natLog2 d with hb_def
  set s0 : ℤ := floatScale0 x with hs0_def
  have hs0_eq : s0 = 52 + (b : ℤ) - (a : ℤ) := rfl
  have hx_eq : x = (n : ℚ) / (d : ℚ) := by
    have hcast : ((n : ℚ)) = (x.num : ℚ) := by
      exact_mod_cast congrArg (fun z : ℤ => (z : ℚ)) (Int.toNat_of_nonneg hnum_pos.le)
    rw [hcast]
    exact (Rat.num_div_den x).symm
  have hd_iq : (0 : ℚ) < (d : ℚ) := by exact_mod_cast Nat.lt_of_lt_of_le Nat.zero_lt_one hd1
  have hz : (0 : ℚ) < (2 : ℚ) ^ s0 := zpow_pos (by norm_num) s0
  have key_up : x * (2 : ℚ) ^ s0 < 2 ^ 53 := by
    rw [hx_eq, div_mul_eq_mul_div, div_lt_iff₀ hd_iq]
    have h1 : (n : ℚ) < (2 : ℚ) ^ (a + 1) := by exact_mod_cast ha2
    have h2 : (2 : ℚ) ^ b ≤ (d : ℚ) := by exact_mod_cast hb1
    calc (n : ℚ) * (2 : ℚ) ^ s0
        < (2 : ℚ) ^ (a + 1) * (2 : ℚ) ^ s0 := mul_lt_mul_of_pos_right h1 hz
      _ = (2 : ℚ) ^ 53 * (2 : ℚ) ^ b := by
          rw [← zpow_natCast (2 : ℚ) (a + 1), ← zpow_natCast (2 : ℚ) 53,
            ← zpow_natCast (2 : ℚ) b, ← zpow_add₀ two_q_ne_zero, ← zpow_add₀ two_q_ne_zero]
          congr 1
          rw [hs0_eq]
          push_cast
          ring
      _ ≤ (2 : ℚ) ^ 53 * (d : ℚ) := mul_le_mul_of_nonneg_left h2 (by positivity)
  have key_lo : (2 : ℚ) ^ 51 < x * (2 : ℚ) ^ s0 := by
    rw [hx_eq, div_mul_eq_mul_div, lt_div_iff₀ hd_iq]
    have h1 : (2 : ℚ) ^ a ≤ (n : ℚ) := by exact_mod_cast ha1
    have h2 : (d : ℚ) < (2 : ℚ) ^ (b + 1) := by exact_mod_cast hb2
    calc (2 : ℚ) ^ 51 * (d : ℚ)
        < (2 : ℚ) ^ 51 * (2 : ℚ) ^ (b + 1) := mul_lt_mul_of_pos_left h2 (by positivity)
      _ = (2 : ℚ) ^ a * (2 : ℚ) ^ s0 := by
          rw [← zpow_natCast (2 : ℚ) 51, ← zpow_natCast (2 : ℚ) (b + 1),
            ← zpow_natCast (2 : ℚ) a, ← zpow_add₀ two_q_ne_zero, ← zpow_add₀ two_q_ne_zero]
          congr 1
          rw [hs0_eq]
          push_cast
          ring
      _ ≤ (n : ℚ) * (2 : ℚ) ^ s0 := mul_le_mul_of_nonneg_right h1 hz.le
  by_cases hlt : x * (2 : ℚ) ^ s0 < 2 ^ 52
  · have hsc : floatScale x = s0 + 1 := by
      rw [floatScale, if_pos (by rw [← hs0_def]; exact hlt)]
    rw [hsc]
    have hsplit : (2 : ℚ) ^ (s0 + 1) = (2 : ℚ) ^ s0 * 2 := by
      rw [zpow_add₀ two_q_ne_zero]
      norm_num
    have e52 : (2 : ℚ) ^ 52 = 2 ^ 51 * 2 := by norm_num
    have e53 : (2 : ℚ) ^ 53 = 2 ^ 52 * 2 := by norm_num
    rw [hsplit]
    constructor
    · nlinarith
    · nlinarith
  · have hsc : floatScale x = s0 := by
      rw [floatScale, if_neg (by rw [← hs0_def]; exact hlt)]
    rw [hsc]
    exact ⟨not_lt.mp hlt, key_up⟩

theorem floatRound_nonneg (x : ℚ) : 0 ≤ floatRound x := by
  unfold floatRound
  split_ifs with h1 h2
  · exact le_refl 0
  · have hy : (0 : ℚ) ≤ x * (2 : ℚ) ^ floatScale x := le_trans (by positivity) h2.1
    have hr := roundHalfEvenQ_nonneg _ hy
    have : (0 : ℚ) ≤ ((roundHalfEvenQ (x * (2 : ℚ) ^ floatScale x) : ℤ) : ℚ) := by
      exact_mod_cast hr
    positivity
  · linarith [not_le.mp h1]

theorem floatRound_id (x : ℚ) (m : ℕ) (t : ℤ) (hm : m < 2 ^ 53)
    (hx : x = (m : ℚ) * 2 ^ t) : floatRound x = x := by
  rcases Nat.eq_zero_or_pos m with h0 | hpos
  · subst h0
    simp at hx
    rw [floatRound, if_pos (le_of_eq hx)]
    exact hx.symm
  · have hxpos : 0 < x := by
      rw [hx]
      have : (0 : ℚ) < (m : ℚ) := by exact_mod_cast hpos
      positivity
    rw [floatRound, if_neg (not_le.mpr hxpos)]
    by_cases hg : 2 ^ 52 ≤ x * (2 : ℚ) ^ floatScale x ∧ x * (2 : ℚ) ^ floatScale x < 2 ^ 53
    · rw [if_pos hg]
      set s := floatScale x with hs_def
      have hy_eq : x * (2 : ℚ) ^ s = (m : ℚ) * 2 ^ (t + s) := by
        rw [hx, mul_assoc, ← zpow_add₀ two_q_ne_zero]
      have hts : 0 ≤ t + s := by
        by_contra hneg
        push_neg at hneg
        have hts1 : t + s ≤ -1 := by omega
        have hmono : (2 : ℚ) ^ (t + s) ≤ (2 : ℚ) ^ (-1 : ℤ) :=
          zpow_le_zpow_right₀ (by norm_num) hts1
        have hhalf : (2 : ℚ) ^ (-1 : ℤ) = 1 / 2 := by norm_num
        have hmq : (m : ℚ) < 2 ^ 53 := by exact_mod_cast hm
        have hup : x * (2 : ℚ) ^ s < 2 ^ 52 := by
          rw [hy_eq]
          calc (m : ℚ) * 2 ^ (t + s) ≤ (m : ℚ) * (1 / 2) := by
                rw [← hhalf]
                exact mul_le_mul_of_nonneg_left hmono (by positivity)
            _ < 2 ^ 53 * (1 / 2) := by
                have : (0 : ℚ) < 1 / 2 := by norm_num
                exact mul_lt_mul_of_pos_right hmq this
            _ = 2 ^ 52 := by norm_num
        linarith [hg.1]
      have hy_nat : x * (2 : ℚ) ^ s = ((m * 2 ^ (t + s).toNat : ℕ) : ℚ) := by
        rw [hy_eq]
        push_cast
        rw [← zpow_natCast (2 : ℚ) (t + s).toNat, Int.toNat_of_nonneg hts]
      rw [hy_nat]
      have hrn : roundHalfEvenQ ((m * 2 ^ (t + s).toNat : ℕ) : ℚ) =
          ((m * 2 ^ (t + s).toNat : ℕ) : ℤ) := by
        have := roundHalfEvenQ_intCast ((m * 2 ^ (t + s).toNat : ℕ) : ℤ)
        rw [← this]
        congr 1
      rw [hrn]
      push_cast
      rw [← zpow_natCast (2 : ℚ) (t + s).toNat, Int.toNat_of_nonneg hts, hx,
        mul_assoc, ← zpow_add₀ two_q_ne_zero]
      have hexp : t + s + -s = t := by ring
      rw [hexp]
    · rw [if_neg hg]

theorem floatRound_err (x : ℚ) (hx : 0 ≤ x) :
    x - x / 2 ^ 53 ≤ floatRound x ∧ floatRound x ≤ x + x / 2 ^ 53 := by
  unfold floatRound
  split_ifs with h1 hg
  · have hx0 : x = 0 := le_antisymm h1 hx
    rw [hx0]
    norm_num
  · obtain ⟨hg1, hg2⟩ := hg
    set s := floatScale x with hs_def
    set y := x * (2 : ℚ) ^ s with hy_def
    have h2s : (0 : ℚ) < (2 : ℚ) ^ s := zpow_pos (by norm_num) s
    obtain ⟨hr1, hr2⟩ := roundHalfEvenQ_bounds y
    have hhalf : (1 : ℚ) / 2 ≤ y / 2 ^ 53 := by
      rw [le_div_iff₀ (by positivity)]
      nlinarith
    have hA : y - y / 2 ^ 53 ≤ ((roundHalfEvenQ y : ℤ) : ℚ) := by linarith
    have hB : ((roundHalfEvenQ y : ℤ) : ℚ) ≤ y + y / 2 ^ 53 := by linarith
    have hFs : ((roundHalfEvenQ y : ℤ) : ℚ) * (2 : ℚ) ^ (-s) * (2 : ℚ) ^ s =
        ((roundHalfEvenQ y : ℤ) : ℚ) := by
      rw [mul_assoc, ← zpow_add₀ two_q_ne_zero]
      simp
    constructor
    · rw [← mul_le_mul_right h2s, hFs, sub_mul, div_mul_eq_mul_div, ← hy_def]
      exact hA
    · rw [← mul_le_mul_left h2s]
      calc (2 : ℚ) ^ s * (((roundHalfEvenQ y : ℤ) : ℚ) * (2 : ℚ) ^ (-s)) =
          ((roundHalfEvenQ y : ℤ) : ℚ) := by
            rw [mul_comm]
            exact hFs
        _ ≤ y + y / 2 ^ 53 := hB
        _ = (2 : ℚ) ^ s * (x + x / 2 ^ 53) := by
            rw [hy_def]
            ring
  · have hpos : 0 < x := lt_of_not_le h1
    constructor
    · have : 0 ≤ x / 2 ^ 53 := by positivity
      linarith
    · have : 0 ≤ x / 2 ^ 53 := by positivity
      linarith

theorem sizeOK_natCast (n : ℕ) (h : n < 2 ^ 256) : sizeOK (n : ℚ) := by
  refine ⟨?_, ?_⟩
  · simpa using h
  · simp

theorem floatRound_rep (x : ℚ) (hx : 0 ≤ x) (hs : sizeOK x) :
    ∃ (m : ℕ) (t : ℤ), m < 2 ^ 53 ∧ floatRound x = (m : ℚ) * 2 ^ t := by
  rcases eq_or_lt_of_le hx with h0 | hpos
  · refine ⟨0, 0, by norm_num, ?_⟩
    rw [← h0]
    simp [floatRound]
  · have hg := floatScale_bracket x hpos hs
    rw [floatRound, if_neg (not_le.mpr hpos), if_pos hg]
    set s := floatScale x with hs_def
    set y := x * (2 : ℚ) ^ s with hy_def
    set R := roundHalfEvenQ y with hR_def
    have hy_nonneg : (0 : ℚ) ≤ y := le_trans (by positivity) hg.1
    have hR0 : 0 ≤ R := roundHalfEvenQ_nonneg y hy_nonneg
    obtain ⟨_, hb⟩ := roundHalfEvenQ_bounds y
    have hRle : R ≤ 2 ^ 53 := by
      have hq : (R : ℚ) < ((2 ^ 53 + 1 : ℤ) : ℚ) := by
        push_cast
        linarith [hg.2]
      have hR1 : R < 2 ^ 53 + 1 := by exact_mod_cast hq
      omega
    rcases lt_or_eq_of_le hRle with hRlt | hReq
    · refine ⟨R.toNat, -s, ?_, ?_⟩
      · omega
      · congr 1
        exact_mod_cast (Int.toNat_of_nonneg hR0).symm
    · refine ⟨2 ^ 52, 1 - s, by norm_num, ?_⟩
      have h1 : (2 : ℚ) ^ (1 - s) = 2 * (2 : ℚ) ^ (-s) := by
        rw [sub_eq_add_neg, zpow_add₀ two_q_ne_zero]
        norm_num
      rw [hReq]
      push_cast
      rw [h1]
      ring

/-! ## Claims -/

/-- C1 counterexample: with `usage = 2 ^ 63` and configured limit and
machine capacity both 1, the effective limit is positive, yet
`toMemoryPercent` returns 0 because `usage * 100` wraps modulo `2 ^ 64` in
`uint64` arithmetic, while `floor(usage * 100 / effectiveLimit)` is not 0. -/
theorem toMemoryPercent_overflow_counterexample :
    0 < min 1 1 ∧
    toMemoryPercent (2 ^ 63) ⟨⟨1⟩, false, false, false, false⟩ ⟨1, 4⟩ = some 0 ∧
    ((2 ^ 63 * 100 / min 1 1 : ℕ) : ℤ) ≠ 0 := by
  refine ⟨by decide, by decide, by decide⟩

/-- C1 (amended): for every usage, limit and machine capacity with
`effectiveLimit = min(limit, machineCapacity) > 0` and additionally
`usage * 100 < 2 ^ 63` (so that neither the `uint64` product wraps nor the
final cast to `int` overflows), `toMemoryPercent` returns
`floor(usage * 100 / effectiveLimit)`; in particular the two quoted
examples hold. -/
theorem toMemoryPercent_floor_formula :
    (∀ (usage : ℕ) (spec : ContainerSpec) (machine : MachineInfo),
      0 < min spec.Memory.Limit machine.MemoryCapacity →
      usage * 100 < 2 ^ 63 →
      toMemoryPercent usage spec machine =
        some ((usage * 100 / min spec.Memory.Limit machine.MemoryCapacity : ℕ) : ℤ))
    ∧ toMemoryPercent 50 ⟨⟨100⟩, false, false, false, false⟩ ⟨1000, 4⟩ = some 50
    ∧ toMemoryPercent 50 ⟨⟨2000⟩, false, false, false, false⟩ ⟨1000, 4⟩ = some 5 := by
  refine ⟨?_, by decide, by decide⟩
  intro usage spec machine hpos hover
  simp only [toMemoryPercent]
  have hmin : (if machine.MemoryCapacity < spec.Memory.Limit then machine.MemoryCapacity
      else spec.Memory.Limit) = min spec.Memory.Limit machine.MemoryCapacity := by
    rw [Nat.min_def]
    split_ifs <;> omega
  rw [hmin, if_neg (by omega)]
  have hmod : usage * 100 % 2 ^ 64 = usage * 100 := Nat.mod_eq_of_lt (by omega)
  rw [hmod]
  rw [int64OfUInt64, if_pos (lt_of_le_of_lt (Nat.div_le_self _ _) hover)]

/-- C1 witness. -/
theorem toMemoryPercent_floor_formula_w :
    0 < min 10 20 ∧ 7 * 100 < 2 ^ 63 ∧
    toMemoryPercent 7 ⟨⟨10⟩, false, false, false, false⟩ ⟨20, 4⟩ =
      some ((7 * 100 / min 10 20 : ℕ) : ℤ) :=
  ⟨by decide, by decide,
    toMemoryPercent_floor_formula.1 7 ⟨⟨10⟩, false, false, false, false⟩ ⟨20, 4⟩
      (by decide) (by decide)⟩

/-- C2: on an empty sample window, `getMemoryUsage` returns the string
"0.0", the three percentage functions return 0 (no fault: the division is
never reached), and `getFsStats` returns the empty list, for every spec and
machine info. -/
theorem emptyWindow_zero_values :
    getMemoryUsage [] = "0.0"
    ∧ (∀ (spec : ContainerSpec) (machine : MachineInfo),
        getMemoryUsagePercent spec [] machine = some 0)
    ∧ (∀ (spec : ContainerSpec) (machine : MachineInfo),
        getHotMemoryPercent spec [] machine = some 0)
    ∧ (∀ (spec : ContainerSpec) (machine : MachineInfo),
        getColdMemoryPercent spec [] machine = some 0)
    ∧ getFsStats [] = ([] : List FsStats) :=
  ⟨rfl, fun _ _ => rfl, fun _ _ => rfl, fun _ _ => rfl, rfl⟩

/-- C4: for every `uint64` byte count at or above `math.MaxInt64 =
2 ^ 63 - 1`, `printSize` returns "unlimited" and `printUnit` returns the
empty string. -/
theorem printSize_unlimited_sentinel :
    ∀ bytes : ℕ, 2 ^ 63 - 1 ≤ bytes → bytes < 2 ^ 64 →
      printSize bytes = "unlimited" ∧ printUnit bytes = "" := by
  intro b h1 _
  exact ⟨by rw [printSize, if_pos h1], by rw [printUnit, if_pos h1]⟩

/-- C4 witness. -/
theorem printSize_unlimited_sentinel_w :
    2 ^ 63 - 1 ≤ (2 ^ 63 - 1 : ℕ) ∧ (2 ^ 63 - 1 : ℕ) < 2 ^ 64 ∧
    printSize (2 ^ 63 - 1) = "unlimited" ∧ printUnit (2 ^ 63 - 1) = "" :=
  ⟨by decide, by decide,
    (printSize_unlimited_sentinel (2 ^ 63 - 1) (by decide) (by decide)).1,
    (printSize_unlimited_sentinel (2 ^ 63 - 1) (by decide) (by decide)).2⟩

/-- C7 counterexample: at `limit = 2 ^ 60` and `used = 2 ^ 60 - 1` the code
returns 100: `float64(2 ^ 60 - 1)` rounds up to `2 ^ 60`, so the float
quotient is exactly 1; exact unsigned arithmetic gives
`floor(used * 100 / limit) = 99`. -/
theorem getFsUsagePercent_float_counterexample :
    getFsUsagePercent (2 ^ 60) (2 ^ 60 - 1) = some 100 ∧
    (2 ^ 60 - 1) * 100 / 2 ^ 60 = (99 : ℕ) := by
  refine ⟨by decide, by decide⟩

/-- C7 (amended): `getFsUsagePercent` computes
`uint64((float64(used) / float64(limit)) * 100)` in `float64`, not in exact
integer arithmetic; it equals `floor(used * 100 / limit)` whenever every
float step is exact — when `used` and `limit` are below `2 ^ 53` and the
exact quotient is a dyadic rational `m * 2 ^ t` with `100 * m < 2 ^ 53`.
The quoted example `FsUsagePercent(limit=200, used=50) = 25` falls in this
exact regime. -/
theorem getFsUsagePercent_exact :
    (∀ (limit used m : ℕ) (t : ℤ),
      0 < limit → limit < 2 ^ 53 → used < 2 ^ 53 →
      (used : ℚ) / (limit : ℚ) = (m : ℚ) * 2 ^ t →
      100 * m < 2 ^ 53 →
      getFsUsagePercent limit used = some (used * 100 / limit))
    ∧ getFsUsagePercent 200 50 = some 25 := by
  refine ⟨?_, by decide⟩
  intro limit used m t hl hl53 hu53 hdy hm
  rw [getFsUsagePercent, if_neg (by omega)]
  congr 1
  have hfu : floatOfNat used = (used : ℚ) := by
    apply floatRound_id _ used 0 hu53
    ring
  have hfl : floatOfNat limit = (limit : ℚ) := by
    apply floatRound_id _ limit 0 hl53
    ring
  have hdiv : floatDiv (floatOfNat used) (floatOfNat limit) = (m : ℚ) * 2 ^ t := by
    rw [floatDiv, hfu, hfl, hdy]
    exact floatRound_id _ m t (by omega) rfl
  have hmul : floatMul ((m : ℚ) * 2 ^ t) 100 = (m : ℚ) * 2 ^ t * 100 := by
    rw [floatMul]
    apply floatRound_id _ (100 * m) t hm
    push_cast
    ring
  rw [hdiv, hmul]
  have hval : (m : ℚ) * 2 ^ t * 100 = ((used * 100 : ℕ) : ℚ) / (limit : ℚ) := by
    rw [← hdy]
    push_cast
    ring
  rw [hval, Nat.floor_div_nat, Nat.floor_natCast]

/-- C7 witness. -/
theorem getFsUsagePercent_exact_w :
    0 < 200 ∧ ((50 : ℚ) / (200 : ℚ) = (1 : ℚ) * 2 ^ (-2 : ℤ)) ∧
    getFsUsagePercent 200 50 = some (50 * 100 / 200) :=
  ⟨by decide, by decide,
    getFsUsagePercent_exact.1 200 50 1 (-2) (by decide) (by decide) (by decide)
      (by decide) (by decide)⟩

/-- Shared shape of `toMemoryPercent` with the saturation written as
`min`. -/
theorem toMemoryPercent_eq_min (usage : ℕ) (spec : ContainerSpec)
    (machine : MachineInfo) :
    toMemoryPercent usage spec machine =
      if min spec.Memory.Limit machine.MemoryCapacity = 0 then none
      else some (int64OfUInt64
        (usage * 100 % 2 ^ 64 / min spec.Memory.Limit machine.MemoryCapacity)) := by
  simp only [toMemoryPercent]
  have hmin : (if machine.MemoryCapacity < spec.Memory.Limit then machine.MemoryCapacity
      else spec.Memory.Limit) = min spec.Memory.Limit machine.MemoryCapacity := by
    rw [Nat.min_def]
    split_ifs <;> omega
  rw [hmin]

/-- C8: under normal input — positive effective limit and numerator not
exceeding it (for the cold variant, working set at most usage and the
difference at most the effective limit; usage within `uint64` range) — the
percentages returned by `toMemoryPercent` through
`getMemoryUsagePercent` / `getHotMemoryPercent` / `getColdMemoryPercent`
are integers in `[0, 100]`, and `getFsUsagePercent` (whose return type is
unsigned) is at most 100 whenever `used ≤ limit`, the float rounding errors
being too small to push the truncated value past 100. -/
theorem percentages_in_range :
    (∀ (usage : ℕ) (spec : ContainerSpec) (machine : MachineInfo) (p : ℤ),
      0 < min spec.Memory.Limit machine.MemoryCapacity →
      usage ≤ min spec.Memory.Limit machine.MemoryCapacity →
      toMemoryPercent usage spec machine = some p → 0 ≤ p ∧ p ≤ 100)
    ∧ (∀ (spec : ContainerSpec) (stats : List ContainerStats) (machine : MachineInfo)
        (s : ContainerStats) (p : ℤ),
        stats.getLast? = some s →
        0 < min spec.Memory.Limit machine.MemoryCapacity →
        s.Memory.Usage ≤ min spec.Memory.Limit machine.MemoryCapacity →
        getMemoryUsagePercent spec stats machine = some p → 0 ≤ p ∧ p ≤ 100)
    ∧ (∀ (spec : ContainerSpec) (stats : List ContainerStats) (machine : MachineInfo)
        (s : ContainerStats) (p : ℤ),
        stats.getLast? = some s →
        0 < min spec.Memory.Limit machine.MemoryCapacity →
        s.Memory.WorkingSet ≤ min spec.Memory.Limit machine.MemoryCapacity →
        getHotMemoryPercent spec stats machine = some p → 0 ≤ p ∧ p ≤ 100)
    ∧ (∀ (spec : ContainerSpec) (stats : List ContainerStats) (machine : MachineInfo)
        (s : ContainerStats) (p : ℤ),
        stats.getLast? = some s →
        0 < min spec.Memory.Limit machine.MemoryCapacity →
        s.Memory.WorkingSet ≤ s.Memory.Usage →
        s.Memory.Usage < 2 ^ 64 →
        s.Memory.Usage - s.Memory.WorkingSet ≤ min spec.Memory.Limit machine.MemoryCapacity →
        getColdMemoryPercent spec stats machine = some p → 0 ≤ p ∧ p ≤ 100)
    ∧ (∀ limit used p : ℕ,
        0 < limit → used ≤ limit →
        getFsUsagePercent limit used = some p → p ≤ 100) := by
  have hcore : ∀ (usage : ℕ) (spec : ContainerSpec) (machine : MachineInfo) (p : ℤ),
      0 < min spec.Memory.Limit machine.MemoryCapacity →
      usage ≤ min spec.Memory.Limit machine.MemoryCapacity →
      toMemoryPercent usage spec machine = some p → 0 ≤ p ∧ p ≤ 100 := by
    intro usage spec machine p h1 h2 hres
    rw [toMemoryPercent_eq_min, if_neg (by omega)] at hres
    set L := min spec.Memory.Limit machine.MemoryCapacity with hL
    set q := usage * 100 % 2 ^ 64 / L with hq
    have hqle : q ≤ 100 := by
      have h3 : usage * 100 % 2 ^ 64 ≤ usage * 100 := Nat.mod_le _ _
      have h4 : usage * 100 ≤ L * 100 := Nat.mul_le_mul_right 100 h2
      have h5 : q ≤ L * 100 / L := Nat.div_le_div_right (by omega)
      have h6 : L * 100 / L = 100 := Nat.mul_div_cancel_left 100 h1
      omega
    have hp : p = int64OfUInt64 q := (Option.some.inj hres).symm
    rw [hp, int64OfUInt64, if_pos (by omega : q < 2 ^ 63)]
    constructor
    · exact_mod_cast Nat.zero_le q
    · exact_mod_cast hqle
  have hfs : ∀ limit used p : ℕ,
      0 < limit → used ≤ limit →
      getFsUsagePercent limit used = some p → p ≤ 100 := by
    intro limit used p hl hul hres
    rw [getFsUsagePercent, if_neg (by omega)] at hres
    have hp : p = ⌊floatMul (floatDiv (floatOfNat used) (floatOfNat limit)) 100⌋₊ :=
      (Option.some.inj hres).symm
    simp only [floatMul, floatDiv, floatOfNat] at hp
    obtain ⟨u, hu_def⟩ : ∃ u : ℚ, u = 1 / 2 ^ 53 := ⟨_, rfl⟩
    have hu_pos : (0 : ℚ) < u := by
      rw [hu_def]
      norm_num
    have hu_small : u < 1 / 2 := by
      rw [hu_def]
      norm_num
    have h1u_pos : (0 : ℚ) < 1 - u := by linarith
    have h1u_nn : (0 : ℚ) ≤ 1 + u := by linarith
    set U : ℚ := (used : ℚ) with hU
    set L : ℚ := (limit : ℚ) with hL
    have hU_nn : 0 ≤ U := by
      rw [hU]
      positivity
    have hL_pos : 0 < L := by
      rw [hL]
      exact_mod_cast hl
    have hUL : U ≤ L := by
      rw [hU, hL]
      exact_mod_cast hul
    have hdivu : ∀ z : ℚ, z / 2 ^ 53 = z * u := by
      intro z
      rw [hu_def]
      ring
    obtain ⟨ha1, ha2⟩ := floatRound_err U hU_nn
    obtain ⟨hb1, hb2⟩ := floatRound_err L hL_pos.le
    rw [hdivu] at ha1 ha2 hb1 hb2
    set a := floatRound U with ha_def
    set b := floatRound L with hb_def
    have ha_nn : 0 ≤ a := floatRound_nonneg U
    have hb_pos : 0 < b := by
      have hLu : L * (1 - u) = L - L * u := by ring
      have : 0 < L * (1 - u) := mul_pos hL_pos h1u_pos
      linarith
    have hab_nn : 0 ≤ a / b := div_nonneg ha_nn hb_pos.le
    obtain ⟨hq1, hq2⟩ := floatRound_err (a / b) hab_nn
    rw [hdivu] at hq2
    set q := floatRound (a / b) with hq_def
    have hq_nn : 0 ≤ q := floatRound_nonneg _
    have hq100_nn : (0 : ℚ) ≤ q * 100 := by positivity
    obtain ⟨hr1, hr2⟩ := floatRound_err (q * 100) hq100_nn
    rw [hdivu] at hr2
    set r := floatRound (q * 100) with hr_def
    -- quotient bound: a / b ≤ (1 + u) / (1 - u)
    have hab : a / b ≤ (1 + u) / (1 - u) := by
      rw [div_le_div_iff₀ hb_pos h1u_pos]
      -- a * (1 - u) ≤ (1 + u) * b
      have e1 : U * (1 + u) = U + U * u := by ring
      have h1a : a ≤ U * (1 + u) := by linarith
      have h1b : U * (1 + u) ≤ L * (1 + u) := mul_le_mul_of_nonneg_right hUL h1u_nn
      have h1 : a ≤ L * (1 + u) := le_trans h1a h1b
      have e2 : L * (1 - u) = L - L * u := by ring
      have h2 : L * (1 - u) ≤ b := by linarith
      have s1 : a * (1 - u) ≤ L * (1 + u) * (1 - u) :=
        mul_le_mul_of_nonneg_right h1 h1u_pos.le
      have s2 : L * (1 + u) * (1 - u) = L * (1 - u) * (1 + u) := by ring
      have s3 : L * (1 - u) * (1 + u) ≤ b * (1 + u) :=
        mul_le_mul_of_nonneg_right h2 h1u_nn
      have s4 : b * (1 + u) = (1 + u) * b := by ring
      linarith
    -- q bound
    have hq_le : q ≤ (1 + u) / (1 - u) * (1 + u) := by
      have e : a / b * (1 + u) = a / b + a / b * u := by ring
      have hq2a : q ≤ a / b * (1 + u) := by linarith
      have hmono : a / b * (1 + u) ≤ (1 + u) / (1 - u) * (1 + u) :=
        mul_le_mul_of_nonneg_right hab h1u_nn
      linarith
    -- r bound
    have hr_le : r ≤ (1 + u) / (1 - u) * (1 + u) * 100 * (1 + u) := by
      have e : q * 100 * (1 + u) = q * 100 + q * 100 * u := by ring
      have hr2a : r ≤ q * 100 * (1 + u) := by linarith
      have hq100 : q * 100 ≤ (1 + u) / (1 - u) * (1 + u) * 100 :=
        mul_le_mul_of_nonneg_right hq_le (by norm_num)
      have hmono : q * 100 * (1 + u) ≤ (1 + u) / (1 - u) * (1 + u) * 100 * (1 + u) :=
        mul_le_mul_of_nonneg_right hq100 h1u_nn
      linarith
    have hfinal : (1 + u) / (1 - u) * (1 + u) * 100 * (1 + u) < 101 := by
      rw [hu_def]
      norm_num
    have hr101 : r < 101 := lt_of_le_of_lt hr_le hfinal
    have : ⌊r⌋₊ < 101 := by
      rw [Nat.floor_lt (floatRound_nonneg _)]
      exact_mod_cast hr101
    omega
  refine ⟨hcore, ?_, ?_, ?_, hfs⟩
  · intro spec stats machine s p hlast h1 h2 hres
    rw [getMemoryUsagePercent, hlast] at hres
    exact hcore _ _ _ _ h1 h2 hres
  · intro spec stats machine s p hlast h1 h2 hres
    rw [getHotMemoryPercent, hlast] at hres
    exact hcore _ _ _ _ h1 h2 hres
  · intro spec stats machine s p hlast h1 hws hub h2 hres
    simp only [getColdMemoryPercent, hlast] at hres
    have hsub : u64sub s.Memory.Usage s.Memory.WorkingSet =
        s.Memory.Usage - s.Memory.WorkingSet := by
      rw [u64sub]
      omega
    rw [hsub] at hres
    exact hcore _ _ _ _ h1 h2 hres

/-- C8 witness. -/
theorem percentages_in_range_w :
    ((0 : ℤ) ≤ 50 ∧ (50 : ℤ) ≤ 100) ∧ (25 : ℕ) ≤ 100 :=
  ⟨percentages_in_range.1 50 ⟨⟨100⟩, false, false, false, false⟩ ⟨1000, 4⟩ 50
      (by decide) (by decide) (by decide),
    percentages_in_range.2.2.2.2 200 50 25 (by decide) (by decide) (by decide)⟩

/-- C9 counterexample: a failed container fetch is not propagated verbatim —
for the name "/x" and upstream error "not found", `serveContainersPage`
returns a different, wrapped error string. -/
theorem serveContainersPage_wraps_counterexample :
    serveContainersPage ("/x") (Except.error ("not found")) (Except.ok ⟨1000, 4⟩) ≠
      Except.error ("not found") ∧
    serveContainersPage ("/x") (Except.error ("not found")) (Except.ok ⟨1000, 4⟩) =
      Except.error ("Failed to get container \"/x\" with error: not found") := by
  refine ⟨by decide, by decide⟩

/-- C9 (amended): when the container-info fetch fails, `serveContainersPage`
returns a new error that wraps the original
(`fmt.Errorf("Failed to get container %q with error: %v", ...)`), for every
name and error; the machine-info fetch error, by contrast, is returned to
the caller verbatim. -/
theorem serveContainersPage_error_propagation :
    (∀ (name e : String) (machRes : Except String MachineInfo),
      serveContainersPage name (Except.error e) machRes =
        Except.error ("Failed to get container " ++ goQuote name
          ++ " with error: " ++ e))
    ∧ (∀ (name e : String) (cont : ContainerInfo),
      serveContainersPage name (Except.ok cont) (Except.error e) = Except.error e) :=
  ⟨fun _ _ _ => rfl, fun _ _ _ => rfl⟩

theorem getActiveCores_foldl_none (es : List String) :
    es.foldl
      (fun activeCores corebits =>
        activeCores.bind fun l => (entryCores corebits).map (fun e => l ++ e))
      none = none := by
  induction es with
  | nil => rfl
  | cons e es ih =>
    simp only [List.foldl_cons, Option.none_bind]
    exact ih

theorem getActiveCores_foldl_some (es : List String) :
    ∀ acc : List ℤ,
      es.foldl
        (fun activeCores corebits =>
          activeCores.bind fun l => (entryCores corebits).map (fun e => l ++ e))
        (some acc) =
      (es.mapM' entryCores).map (fun ls => acc ++ ls.flatten) := by
  induction es with
  | nil =>
    intro acc
    simp [List.mapM']
  | cons e es ih =>
    intro acc
    simp only [List.foldl_cons, Option.some_bind]
    cases he : entryCores e with
    | none =>
      simp only [he, Option.map_none']
      rw [getActiveCores_foldl_none, List.mapM'_cons, he]
      rfl
    | some v =>
      simp only [he, Option.map_some']
      rw [ih (acc ++ v), List.mapM'_cons, he]
      cases hm : es.mapM' entryCores with
      | none => rfl
      | some ls => simp [List.append_assoc]

theorem getActiveCores_eq_mapM (mask : String) :
    getActiveCores mask = ((stringsSplit mask ',').mapM' entryCores).map List.flatten := by
  rw [getActiveCores, getActiveCores_foldl_some]
  simp

theorem mapM_entryCores_none_iff :
    ∀ es : List String, es.mapM' entryCores = none ↔ ∃ e ∈ es, entryCores e = none := by
  intro es
  induction es with
  | nil => simp [List.mapM']
  | cons e es ih =>
    rw [List.mapM'_cons]
    cases he : entryCores e with
    | none => simp [he]
    | some v =>
      cases hm : es.mapM' entryCores with
      | none =>
        simp only [Option.some_bind, Option.none_bind, Option.pure_def]
        constructor
        · intro _
          obtain ⟨x, hx, hxn⟩ := ih.mp hm
          exact ⟨x, List.mem_cons_of_mem e hx, hxn⟩
        · intro _
          simp
      | some ls =>
        simp only [Option.some_bind, Option.none_bind, Option.pure_def]
        constructor
        · intro h
          exact absurd h (by simp)
        · rintro ⟨x, hx, hxn⟩
          rcases List.mem_cons.mp hx with rfl | hx2
          · exact absurd hxn (by simp [he])
          · have := ih.mpr ⟨x, hx2, hxn⟩
            rw [hm] at this
            exact absurd this (by simp)

theorem mapM_entryCores_mem (es : List String) :
    ∀ ls : List (List ℤ), es.mapM' entryCores = some ls →
      ∀ piece ∈ ls, ∃ e ∈ es, entryCores e = some piece := by
  induction es with
  | nil =>
    intro ls h piece hp
    simp only [List.mapM'_nil] at h
    cases Option.some.inj h
    exact absurd hp (List.not_mem_nil piece)
  | cons e es ih =>
    intro ls h piece hp
    rw [List.mapM'_cons] at h
    cases he : entryCores e with
    | none =>
      rw [he] at h
      exact absurd h (by simp)
    | some v =>
      rw [he] at h
      cases hm : es.mapM' entryCores with
      | none =>
        rw [hm] at h
        exact absurd h (by simp)
      | some ls2 =>
        rw [hm] at h
        simp only [Option.some_bind, Option.pure_def] at h
        cases Option.some.inj h
        rcases List.mem_cons.mp hp with rfl | hp2
        · exact ⟨e, List.mem_cons_self _ _, he⟩
        · obtain ⟨x, hx, hxe⟩ := ih ls2 hm piece hp2
          exact ⟨x, List.mem_cons_of_mem e hx, hxe⟩

theorem splitOnChar_ne_nil (c : Char) (l : List Char) : splitOnChar c l ≠ [] := by
  cases l with
  | nil => simp [splitOnChar]
  | cons x xs =>
    rw [splitOnChar]
    split_ifs
    · simp
    · cases splitOnChar c xs <;> simp

theorem splitOnChar_sep_not_mem (c : Char) :
    ∀ (l : List Char) (p : List Char), p ∈ splitOnChar c l → c ∉ p := by
  intro l
  induction l with
  | nil =>
    intro p hp
    simp [splitOnChar] at hp
    subst hp
    simp
  | cons x xs ih =>
    intro p hp
    rw [splitOnChar] at hp
    by_cases hxc : x = c
    · rw [if_pos hxc] at hp
      rcases List.mem_cons.mp hp with rfl | hp2
      · simp
      · exact ih p hp2
    · rw [if_neg hxc] at hp
      rcases hsp : splitOnChar c xs with _ | ⟨y, ys⟩
      · exact absurd hsp (splitOnChar_ne_nil c xs)
      · simp only [hsp] at hp
        rcases List.mem_cons.mp hp with rfl | hp2
        · intro hc
          rcases List.mem_cons.mp hc with rfl | hc2
          · exact hxc rfl
          · exact ih y (by rw [hsp]; exact List.mem_cons_self y ys) hc2
        · exact ih p (by rw [hsp]; exact List.mem_cons_of_mem y hp2)

theorem stringsSplit_sep_not_mem (s : String) (c : Char) (piece : String)
    (hp : piece ∈ stringsSplit s c) : c ∉ piece.toList := by
  rw [stringsSplit, List.mem_map] at hp
  obtain ⟨p, hp1, rfl⟩ := hp
  exact splitOnChar_sep_not_mem c s.toList p hp1

theorem strconvAtoi_nonneg (s : String) (hs : ('-' : Char) ∉ s.toList) (v : ℤ)
    (hv : strconvAtoi s = some v) : 0 ≤ v := by
  cases hl : s.toList with
  | nil =>
    rw [strconvAtoi, hl] at hv
    exact absurd hv (by simp)
  | cons ch rest =>
    rw [hl] at hs
    have hch : ch ≠ '-' := fun h => hs (by rw [h]; exact List.mem_cons_self _ _)
    by_cases hplus : ch = '+'
    · rw [strconvAtoi] at hv
      simp only [hl, if_pos hplus] at hv
      rcases hpd : parseDigits rest with _ | n
      · rw [hpd] at hv
        exact absurd hv (by simp)
      · rw [hpd] at hv
        simp only [Option.some_bind] at hv
        split_ifs at hv
        cases Option.some.inj hv
        positivity
    · rw [strconvAtoi] at hv
      simp only [hl, if_neg hplus, if_neg hch] at hv
      rcases hpd : parseDigits (ch :: rest) with _ | n
      · rw [hpd] at hv
        exact absurd hv (by simp)
      · rw [hpd] at hv
        simp only [Option.some_bind] at hv
        split_ifs at hv
        cases Option.some.inj hv
        positivity

theorem entryCores_nonneg (corebits : String)
    (hsplit : ∀ piece ∈ stringsSplit corebits '-', ('-' : Char) ∉ piece.toList)
    (l : List ℤ) (hl : entryCores corebits = some l) (i : ℤ) (hi : i ∈ l) : 0 ≤ i := by
  rw [entryCores] at hl
  rcases hsp : stringsSplit corebits '-' with _ | ⟨c1, _ | ⟨c2, _ | _⟩⟩ <;>
    simp only [hsp] at hl
  · cases Option.some.inj hl
    exact absurd hi (List.not_mem_nil i)
  · rcases h1 : strconvAtoi c1 with _ | v
    · rw [h1] at hl
      cases Option.some.inj hl
      exact absurd hi (List.not_mem_nil i)
    · rw [h1] at hl
      cases Option.some.inj hl
      have hv : 0 ≤ v := strconvAtoi_nonneg c1
        (hsplit c1 (by rw [hsp]; exact List.mem_cons_self _ _)) v h1
      rcases List.mem_singleton.mp hi with rfl
      exact hv
  · rcases h1 : strconvAtoi c1 with _ | v1 <;> rcases h2 : strconvAtoi c2 with _ | v2 <;>
      simp only [h1, h2] at hl
    · cases Option.some.inj hl
      exact absurd hi (List.not_mem_nil i)
    · cases Option.some.inj hl
      exact absurd hi (List.not_mem_nil i)
    · cases Option.some.inj hl
      exact absurd hi (List.not_mem_nil i)
    · split_ifs at hl
      cases Option.some.inj hl
      have hv1 : 0 ≤ v1 := strconvAtoi_nonneg c1
        (hsplit c1 (by rw [hsp]; exact List.mem_cons_self _ _)) v1 h1
      rw [List.mem_map] at hi
      obtain ⟨k, _, rfl⟩ := hi
      have hk : 0 ≤ Int.ofNat k := Int.natCast_nonneg k
      exact add_nonneg hv1 hk
  · cases Option.some.inj hl
    exact absurd hi (List.not_mem_nil i)

/-- C10 counterexample: `getActiveCores` is not total over all strings —
for the mask "0-9223372036854775807", both tokens are accepted by `Atoi`
(the second is `math.MaxInt64 = 2 ^ 63 - 1`), and the range loop
`for i := start; i <= end; i++` never terminates, because `i <= end` holds
of every `int64` and the counter wraps at the maximum; the model records
the divergence as `none`. -/
theorem getActiveCores_divergence_counterexample :
    getActiveCores ("0-9223372036854775807") = none ∧
    strconvAtoi ("0") = some 0 ∧
    strconvAtoi ("9223372036854775807") = some (2 ^ 63 - 1) := by
  refine ⟨by decide, by decide, by decide⟩

/-- C10 (amended): whenever `getActiveCores` returns, its core-index set
contains only non-negative indices (a minus sign always triggers the range
split, so a negative singleton like "-5" is dropped); an entry with more
than one dash (e.g. "1-2-3") is skipped entirely; a range whose start
exceeds its end contributes no indices; and `getActiveCores` terminates on
exactly the masks none of whose entries is a dash-separated pair of parsed
integers whose end bound is `2 ^ 63 - 1` — on those the `int64` loop
counter wraps at `math.MaxInt64` and the range loop diverges. -/
theorem getActiveCores_nonneg_total :
    (∀ (mask : String) (l : List ℤ), getActiveCores mask = some l → ∀ i ∈ l, 0 ≤ i)
    ∧ getActiveCores ("-5") = some []
    ∧ getActiveCores ("1-2-3") = some []
    ∧ (∀ start stop : ℤ, stop < start →
        (List.range (stop + 1 - start).toNat).map (fun k => start + Int.ofNat k) = [])
    ∧ (∀ corebits : String, entryCores corebits = none ↔
        ∃ c1 c2 v1, stringsSplit corebits '-' = [c1, c2] ∧
          strconvAtoi c1 = some v1 ∧ strconvAtoi c2 = some (2 ^ 63 - 1))
    ∧ (∀ mask : String, getActiveCores mask = none ↔
        ∃ e ∈ stringsSplit mask ',', entryCores e = none) := by
  refine ⟨?_, by decide, by decide, ?_, ?_, ?_⟩
  · intro mask l hsome i hi
    rw [getActiveCores_eq_mapM] at hsome
    obtain ⟨ls, hls, rfl⟩ := Option.map_eq_some'.mp hsome
    rw [List.mem_flatten] at hi
    obtain ⟨piece, hpls, hip⟩ := hi
    obtain ⟨entry, _, hee⟩ := mapM_entryCores_mem (stringsSplit mask ',') ls hls piece hpls
    exact entryCores_nonneg entry
      (fun p hp => stringsSplit_sep_not_mem entry '-' p hp) piece hee i hip
  · intro start stop h
    have : (stop + 1 - start).toNat = 0 := by omega
    rw [this]
    rfl
  · intro corebits
    rcases hsp : stringsSplit corebits '-' with _ | ⟨c1, _ | ⟨c2, _ | _⟩⟩ <;>
      rw [entryCores] <;> simp only [hsp]
    · constructor
      · intro h
        exact absurd h (by simp)
      · rintro ⟨c1', c2', v1', heq, -, -⟩
        exact List.noConfusion heq
    · constructor
      · rcases h1 : strconvAtoi c1 with _ | v <;> simp
      · rintro ⟨c1', c2', v1', heq, -, -⟩
        obtain ⟨-, htl⟩ := List.cons.inj heq
        exact List.noConfusion htl
    · rcases h1 : strconvAtoi c1 with _ | v1 <;> rcases h2 : strconvAtoi c2 with _ | v2 <;>
        simp only [h1, h2]
      · constructor
        · intro h
          exact absurd h (by simp)
        · rintro ⟨c1', c2', v1', heq, ha1, -⟩
          obtain ⟨rfl, htl⟩ := List.cons.inj heq
          rw [h1] at ha1
          exact Option.noConfusion ha1
      · constructor
        · intro h
          exact absurd h (by simp)
        · rintro ⟨c1', c2', v1', heq, ha1, -⟩
          obtain ⟨rfl, htl⟩ := List.cons.inj heq
          rw [h1] at ha1
          exact Option.noConfusion ha1
      · constructor
        · intro h
          exact absurd h (by simp)
        · rintro ⟨c1', c2', v1', heq, -, ha2⟩
          obtain ⟨rfl, htl⟩ := List.cons.inj heq
          obtain ⟨rfl, -⟩ := List.cons.inj htl
          rw [h2] at ha2
          exact Option.noConfusion ha2
      · by_cases hM : v2 = 2 ^ 63 - 1
        · rw [if_pos hM]
          constructor
          · intro _
            exact ⟨c1, c2, v1, rfl, h1, by rw [h2, hM]⟩
          · intro _
            rfl
        · rw [if_neg hM]
          constructor
          · intro h
            exact absurd h (by simp)
          · rintro ⟨c1', c2', v1', heq, -, ha2⟩
            obtain ⟨rfl, htl⟩ := List.cons.inj heq
            obtain ⟨rfl, -⟩ := List.cons.inj htl
            rw [h2] at ha2
            exact absurd (Option.some.inj ha2) hM
    · constructor
      · intro h
        exact absurd h (by simp)
      · rintro ⟨c1', c2', v1', heq, -, -⟩
        obtain ⟨-, htl⟩ := List.cons.inj heq
        obtain ⟨-, htl2⟩ := List.cons.inj htl
        exact List.noConfusion htl2
  · intro mask
    rw [getActiveCores_eq_mapM, Option.map_eq_none']
    exact mapM_entryCores_none_iff (stringsSplit mask ',')

/-- C10 witness. -/
theorem getActiveCores_nonneg_total_w :
    ((0 : ℤ) ≤ 5) ∧
    (List.range (((2 : ℤ) + 1 - 4).toNat)).map (fun k => (4 : ℤ) + Int.ofNat k) = [] ∧
    getActiveCores ("0-9223372036854775807") = none :=
  ⟨getActiveCores_nonneg_total.1 ("5") [5] (by decide) 5 (by decide),
    getActiveCores_nonneg_total.2.2.2.1 4 2 (by decide),
    (getActiveCores_nonneg_total.2.2.2.2.2 ("0-9223372036854775807")).mpr
      ⟨("0-9223372036854775807"), by decide, by decide⟩⟩

/-- C5 counterexample: `getActiveCores` (hence `printMask`) is not an
error-free total function — on the mask
"9223372036854775807-9223372036854775807" both range bounds parse to
`math.MaxInt64 = 2 ^ 63 - 1` and the loop `for i := start; i <= end; i++`
never terminates: `i <= end` holds of every `int64` value and the counter
wraps past the maximum; the model records the divergence as `none`, where
the claim's reading would require a definite core set. -/
theorem rangeLoop_divergence_counterexample :
    getActiveCores ("9223372036854775807-9223372036854775807") = none ∧
    printMask ("9223372036854775807-9223372036854775807") 4 = none := by
  refine ⟨by decide, by decide⟩

/-- C5 (amended): `ParseCoreMask("0-2,5") = {0,1,2,5}` and
`ParseCoreMask("abc,1") = {1}` (as insertion lists); in general
`getActiveCores` is the concatenation of each comma-separated entry's
contribution (single integer, inclusive range, or nothing for a malformed
entry), short-circuiting to divergence when an entry's range loop never
terminates (end bound `2 ^ 63 - 1`); and whenever `getActiveCores`
returns, the rendered core-activity mask has exactly `numCores` entries,
entry `i` being the active span iff `i` is in the parsed set. -/
theorem getActiveCores_parse_spec :
    getActiveCores ("0-2,5") = some [0, 1, 2, 5]
    ∧ getActiveCores ("abc,1") = some [1]
    ∧ (∀ mask : String,
        getActiveCores mask = ((stringsSplit mask ',').mapM' entryCores).map List.flatten)
    ∧ (∀ (mask : String) (numCores : ℕ) (activeCores : List ℤ),
        getActiveCores mask = some activeCores →
        printMaskEntries mask numCores =
          some ((List.range numCores).map
            (fun i => printMaskEntry (activeCores.contains (Int.ofNat i)) i))
        ∧ ∀ entries, printMaskEntries mask numCores = some entries →
            entries.length = numCores
            ∧ ∀ i : ℕ, i < numCores →
                entries.getD i "" =
                  printMaskEntry (activeCores.contains (Int.ofNat i)) i) := by
  refine ⟨by decide, by decide, getActiveCores_eq_mapM, ?_⟩
  intro mask numCores activeCores hsome
  have hpe : printMaskEntries mask numCores =
      some ((List.range numCores).map
        (fun i => printMaskEntry (activeCores.contains (Int.ofNat i)) i)) := by
    rw [printMaskEntries, hsome]
    rfl
  refine ⟨hpe, ?_⟩
  intro entries hent
  rw [hpe] at hent
  cases Option.some.inj hent
  constructor
  · simp
  · intro i hi
    rw [List.getD_eq_getElem?_getD, List.getElem?_map, List.getElem?_range hi]
    rfl

/-- C5 witness. -/
theorem getActiveCores_parse_spec_w :
    getActiveCores ("0-2") = some [0, 1, 2] ∧
    printMaskEntries ("0-2") 3 =
      some ((List.range 3).map
        (fun i => printMaskEntry (([0, 1, 2] : List ℤ).contains (Int.ofNat i)) i)) :=
  ⟨by decide, (getActiveCores_parse_spec.2.2.2 ("0-2") 3 [0, 1, 2] (by decide)).1⟩

theorem filterMap_range'_eq_enumFrom {β : Type} (g : ℕ → String → Option β) :
    ∀ (l : List String) (s : ℕ) (big : List String), big.drop s = l →
      (List.range' s l.length).filterMap (fun i => g i (big.getD i "")) =
        (l.enumFrom s).filterMap (fun p => g p.1 p.2) := by
  intro l
  induction l with
  | nil =>
    intro s big h
    simp
  | cons a t ih =>
    intro s big h
    have hs_lt : s < big.length := by
      by_contra hge
      push_neg at hge
      rw [List.drop_eq_nil_of_le hge] at h
      exact List.noConfusion h
    have hsplit : big.drop s = big[s] :: big.drop (s + 1) :=
      List.drop_eq_getElem_cons hs_lt
    rw [h] at hsplit
    obtain ⟨ha, ht⟩ := List.cons.inj hsplit.symm
    have hgetD : big.getD s "" = a := by
      rw [List.getD_eq_getElem?_getD, List.getElem?_eq_getElem hs_lt]
      simpa using ha
    rw [List.length_cons, List.range'_succ, List.enumFrom_cons]
    simp only [List.filterMap_cons]
    rw [hgetD]
    have hih := ih (s + 1) big ht
    cases hga : g s a <;> simp only [hga] <;> rw [hih]

/-- C6: the parent-container trail built by `serveContainersPage` is
exactly the claimed breadcrumb sequence — synthetic root entry first, then
one entry per subsequent non-empty split segment with the cumulative
joined link — and the two quoted examples hold. -/
theorem parentContainers_breadcrumbs :
    (∀ name : String, parentContainers name = breadcrumbsSpec name ContainersPage)
    ∧ parentContainers ("/a/b/c") =
      [⟨"root", "/containers/"⟩, ⟨"a", "/containers/a"⟩, ⟨"b", "/containers/a/b"⟩,
        ⟨"c", "/containers/a/b/c"⟩]
    ∧ parentContainers ("") = [⟨"root", "/containers/"⟩] := by
  refine ⟨?_, by decide, by decide⟩
  intro name
  simp only [parentContainers, breadcrumbsSpec]
  congr 1
  have hlen : (stringsSplit name '/').length - 1 =
      ((stringsSplit name '/').drop 1).length := by
    rw [List.length_drop]
  rw [hlen]
  exact filterMap_range'_eq_enumFrom
    (fun i part =>
      if part = "" then none
      else some (link.mk part (goPathJoin [ContainersPage,
        goPathJoin (((stringsSplit name '/').drop 1).take i)])))
    ((stringsSplit name '/').drop 1) 1 (stringsSplit name '/') rfl

theorem fmtF2_natCast (b : ℕ) : fmtF2 (b : ℚ) = Nat.repr b ++ ".00" := by
  rw [fmtF2]
  have h1 : (b : ℚ) * 100 = (((100 * b : ℕ) : ℤ) : ℚ) := by
    push_cast
    ring
  rw [h1, roundHalfEvenQ_intCast, Int.toNat_ofNat]
  have e1 : 100 * b / 100 = b := Nat.mul_div_cancel_left b (by norm_num)
  have e2 : 100 * b % 100 = 0 := Nat.mul_mod_right 100 b
  rw [e1, e2, pad2, if_pos (by norm_num), String.append_assoc]
  congr 1

theorem unit_size_spec (v : ℚ) (m : ℕ) (t : ℤ) (hm : m < 2 ^ 53)
    (hrep : v = (m : ℚ) * 2 ^ t) :
    ByteSize.Unit v = (specLargestUnit v).2 ∧
    ByteSize.Size v = fmtF2 (v / (specLargestUnit v).1) := by
  have hdivU : ∀ u : ℚ, (∃ k : ℕ, u = (2 : ℚ) ^ k) → floatDiv v u = v / u := by
    rintro u ⟨k, rfl⟩
    rw [floatDiv]
    have hq : v / (2 : ℚ) ^ k = (m : ℚ) * 2 ^ (t - k) := by
      rw [hrep, zpow_sub₀ two_q_ne_zero, zpow_natCast]
      ring
    rw [hq]
    exact floatRound_id _ m (t - k) hm rfl
  by_cases hYB : YB ≤ v
  · have hKBle : KB ≤ v := le_trans (by norm_num [KB, YB]) hYB
    have hMBle : MB ≤ v := le_trans (by norm_num [MB, YB]) hYB
    have hGBle : GB ≤ v := le_trans (by norm_num [GB, YB]) hYB
    have hTBle : TB ≤ v := le_trans (by norm_num [TB, YB]) hYB
    have hPBle : PB ≤ v := le_trans (by norm_num [PB, YB]) hYB
    have hEBle : EB ≤ v := le_trans (by norm_num [EB, YB]) hYB
    have hZBle : ZB ≤ v := le_trans (by norm_num [ZB, YB]) hYB
    have h1le : (1 : ℚ) ≤ v := le_trans (by norm_num [YB]) hYB
    have hspec : specLargestUnit v = (YB, "YB") := by
      rw [specLargestUnit]
      simp [unitsAscending, h1le, hKBle, hMBle, hGBle, hTBle, hPBle, hEBle, hZBle, hYB]
    refine ⟨?_, ?_⟩
    · rw [ByteSize.Unit, if_pos hYB, hspec]
    · rw [ByteSize.Size, List.find?_cons_of_pos _ (by simp [hYB]),
        Option.map_some', Option.getD_some, hdivU YB ⟨80, rfl⟩, hspec]
  · by_cases hZB : ZB ≤ v
    · have hKBle : KB ≤ v := le_trans (by norm_num [KB, ZB]) hZB
      have hMBle : MB ≤ v := le_trans (by norm_num [MB, ZB]) hZB
      have hGBle : GB ≤ v := le_trans (by norm_num [GB, ZB]) hZB
      have hTBle : TB ≤ v := le_trans (by norm_num [TB, ZB]) hZB
      have hPBle : PB ≤ v := le_trans (by norm_num [PB, ZB]) hZB
      have hEBle : EB ≤ v := le_trans (by norm_num [EB, ZB]) hZB
      have h1le : (1 : ℚ) ≤ v := le_trans (by norm_num [ZB]) hZB
      have hspec : specLargestUnit v = (ZB, "ZB") := by
        rw [specLargestUnit]
        simp [unitsAscending, h1le, hKBle, hMBle, hGBle, hTBle, hPBle, hEBle, hZB, hYB]
      refine ⟨?_, ?_⟩
      · rw [ByteSize.Unit, if_neg hYB, if_pos hZB, hspec]
      · rw [ByteSize.Size, List.find?_cons_of_neg _ (by simp [hYB]),
          List.find?_cons_of_pos _ (by simp [hZB]),
          Option.map_some', Option.getD_some, hdivU ZB ⟨70, rfl⟩, hspec]
    · by_cases hEB : EB ≤ v
      · have hKBle : KB ≤ v := le_trans (by norm_num [KB, EB]) hEB
        have hMBle : MB ≤ v := le_trans (by norm_num [MB, EB]) hEB
        have hGBle : GB ≤ v := le_trans (by norm_num [GB, EB]) hEB
        have hTBle : TB ≤ v := le_trans (by norm_num [TB, EB]) hEB
        have hPBle : PB ≤ v := le_trans (by norm_num [PB, EB]) hEB
        have h1le : (1 : ℚ) ≤ v := le_trans (by norm_num [EB]) hEB
        have hspec : specLargestUnit v = (EB, "EB") := by
          rw [specLargestUnit]
          simp [unitsAscending, h1le, hKBle, hMBle, hGBle, hTBle, hPBle, hEB, hZB, hYB]
        refine ⟨?_, ?_⟩
        · rw [ByteSize.Unit, if_neg hYB, if_neg hZB, if_pos hEB, hspec]
        · rw [ByteSize.Size, List.find?_cons_of_neg _ (by simp [hYB]),
            List.find?_cons_of_neg _ (by simp [hZB]),
            List.find?_cons_of_pos _ (by simp [hEB]),
            Option.map_some', Option.getD_some, hdivU EB ⟨60, rfl⟩, hspec]
      · by_cases hPB : PB ≤ v
        · have hKBle : KB ≤ v := le_trans (by norm_num [KB, PB]) hPB
          have hMBle : MB ≤ v := le_trans (by norm_num [MB, PB]) hPB
          have hGBle : GB ≤ v := le_trans (by norm_num [GB, PB]) hPB
          have hTBle : TB ≤ v := le_trans (by norm_num [TB, PB]) hPB
          have h1le : (1 : ℚ) ≤ v := le_trans (by norm_num [PB]) hPB
          have hspec : specLargestUnit v = (PB, "PB") := by
            rw [specLargestUnit]
            simp [unitsAscending, h1le, hKBle, hMBle, hGBle, hTBle, hPB, hEB, hZB, hYB]
          refine ⟨?_, ?_⟩
          · rw [ByteSize.Unit, if_neg hYB, if_neg hZB, if_neg hEB, if_pos hPB, hspec]
          · rw [ByteSize.Size, List.find?_cons_of_neg _ (by simp [hYB]),
              List.find?_cons_of_neg _ (by simp [hZB]),
              List.find?_cons_of_neg _ (by simp [hEB]),
              List.find?_cons_of_pos _ (by simp [hPB]),
              Option.map_some', Option.getD_some, hdivU PB ⟨50, rfl⟩, hspec]
        · by_cases hTB : TB ≤ v
          · have hKBle : KB ≤ v := le_trans (by norm_num [KB, TB]) hTB
            have hMBle : MB ≤ v := le_trans (by norm_num [MB, TB]) hTB
            have hGBle : GB ≤ v := le_trans (by norm_num [GB, TB]) hTB
            have h1le : (1 : ℚ) ≤ v := le_trans (by norm_num [TB]) hTB
            have hspec : specLargestUnit v = (TB, "TB") := by
              rw [specLargestUnit]
              simp [unitsAscending, h1le, hKBle, hMBle, hGBle, hTB, hPB, hEB, hZB, hYB]
            refine ⟨?_, ?_⟩
            · rw [ByteSize.Unit, if_neg hYB, if_neg hZB, if_neg hEB, if_neg hPB,
                if_pos hTB, hspec]
            · rw [ByteSize.Size, List.find?_cons_of_neg _ (by simp [hYB]),
                List.find?_cons_of_neg _ (by simp [hZB]),
                List.find?_cons_of_neg _ (by simp [hEB]),
                List.find?_cons_of_neg _ (by simp [hPB]),
                List.find?_cons_of_pos _ (by simp [hTB]),
                Option.map_some', Option.getD_some, hdivU TB ⟨40, rfl⟩, hspec]
          · by_cases hGB : GB ≤ v
            · have hKBle : KB ≤ v := le_trans (by norm_num [KB, GB]) hGB
              have hMBle : MB ≤ v := le_trans (by norm_num [MB, GB]) hGB
              have h1le : (1 : ℚ) ≤ v := le_trans (by norm_num [GB]) hGB
              have hspec : specLargestUnit v = (GB, "GB") := by
                rw [specLargestUnit]
                simp [unitsAscending, h1le, hKBle, hMBle, hGB, hTB, hPB, hEB, hZB, hYB]
              refine ⟨?_, ?_⟩
              · rw [ByteSize.Unit, if_neg hYB, if_neg hZB, if_neg hEB, if_neg hPB,
                  if_neg hTB, if_pos hGB, hspec]
              · rw [ByteSize.Size, List.find?_cons_of_neg _ (by simp [hYB]),
                  List.find?_cons_of_neg _ (by simp [hZB]),
                  List.find?_cons_of_neg _ (by simp [hEB]),
                  List.find?_cons_of_neg _ (by simp [hPB]),
                  List.find?_cons_of_neg _ (by simp [hTB]),
                  List.find?_cons_of_pos _ (by simp [hGB]),
                  Option.map_some', Option.getD_some, hdivU GB ⟨30, rfl⟩, hspec]
            · by_cases hMB : MB ≤ v
              · have hKBle : KB ≤ v := le_trans (by norm_num [KB, MB]) hMB
                have h1le : (1 : ℚ) ≤ v := le_trans (by norm_num [MB]) hMB
                have hspec : specLargestUnit v = (MB, "MB") := by
                  rw [specLargestUnit]
                  simp [unitsAscending, h1le, hKBle, hMB, hGB, hTB, hPB, hEB, hZB, hYB]
                refine ⟨?_, ?_⟩
                · rw [ByteSize.Unit, if_neg hYB, if_neg hZB, if_neg hEB, if_neg hPB,
                    if_neg hTB, if_neg hGB, if_pos hMB, hspec]
                · rw [ByteSize.Size, List.find?_cons_of_neg _ (by simp [hYB]),
                    List.find?_cons_of_neg _ (by simp [hZB]),
                    List.find?_cons_of_neg _ (by simp [hEB]),
                    List.find?_cons_of_neg _ (by simp [hPB]),
                    List.find?_cons_of_neg _ (by simp [hTB]),
                    List.find?_cons_of_neg _ (by simp [hGB]),
                    List.find?_cons_of_pos _ (by simp [hMB]),
                    Option.map_some', Option.getD_some, hdivU MB ⟨20, rfl⟩, hspec]
              · by_cases hKB : KB ≤ v
                · have h1le : (1 : ℚ) ≤ v := le_trans (by norm_num [KB]) hKB
                  have hspec : specLargestUnit v = (KB, "KB") := by
                    rw [specLargestUnit]
                    simp [unitsAscending, h1le, hKB, hMB, hGB, hTB, hPB, hEB, hZB, hYB]
                  refine ⟨?_, ?_⟩
                  · rw [ByteSize.Unit, if_neg hYB, if_neg hZB, if_neg hEB, if_neg hPB,
                      if_neg hTB, if_neg hGB, if_neg hMB, if_pos hKB, hspec]
                  · rw [ByteSize.Size, List.find?_cons_of_neg _ (by simp [hYB]),
                      List.find?_cons_of_neg _ (by simp [hZB]),
                      List.find?_cons_of_neg _ (by simp [hEB]),
                      List.find?_cons_of_neg _ (by simp [hPB]),
                      List.find?_cons_of_neg _ (by simp [hTB]),
                      List.find?_cons_of_neg _ (by simp [hGB]),
                      List.find?_cons_of_neg _ (by simp [hMB]),
                      List.find?_cons_of_pos _ (by simp [hKB]),
                      Option.map_some', Option.getD_some, hdivU KB ⟨10, rfl⟩, hspec]
                · have hspec : specLargestUnit v = (1, "B") := by
                    rw [specLargestUnit]
                    by_cases h1 : (1 : ℚ) ≤ v <;>
                      simp [unitsAscending, h1, hKB, hMB, hGB, hTB, hPB, hEB, hZB, hYB]
                  refine ⟨?_, ?_⟩
                  · rw [ByteSize.Unit, if_neg hYB, if_neg hZB, if_neg hEB, if_neg hPB,
                      if_neg hTB, if_neg hGB, if_neg hMB, if_neg hKB, hspec]
                  · rw [ByteSize.Size, List.find?_cons_of_neg _ (by simp [hYB]),
                      List.find?_cons_of_neg _ (by simp [hZB]),
                      List.find?_cons_of_neg _ (by simp [hEB]),
                      List.find?_cons_of_neg _ (by simp [hPB]),
                      List.find?_cons_of_neg _ (by simp [hTB]),
                      List.find?_cons_of_neg _ (by simp [hGB]),
                      List.find?_cons_of_neg _ (by simp [hMB]),
                      List.find?_cons_of_neg _ (by simp [hKB]),
                      List.find?_nil, Option.map_none', Option.getD_none, hspec]
                    rw [div_one]

/-- C3 counterexample: at `b = 2 ^ 60 - 1` the code prints unit "EB"
although the largest unit whose threshold is at most `b` is "PB"
(`2 ^ 50 ≤ b < 2 ^ 60`): the conversion of `b` to `float64` rounds up to
exactly `2 ^ 60`, crossing the unit boundary. -/
theorem printUnit_rounding_counterexample :
    printUnit (2 ^ 60 - 1) = "EB" ∧
    (specLargestUnit ((2 ^ 60 - 1 : ℕ) : ℚ)).2 = "PB" ∧
    floatOfNat (2 ^ 60 - 1) = 2 ^ 60 := by
  refine ⟨by decide, by decide, by decide⟩

/-- C3 (amended): for every `uint64` byte count below the sentinel, the
printed unit is the largest of {B, KB, ..., YB} whose threshold is at most
`float64(b)` — the byte count after conversion to double, which can round
up across a unit boundary — and the printed value is `float64(b)` divided
by that unit's factor (the division is exact) rendered to two decimals;
for `b < 2 ^ 53` the conversion is exact so the selection agrees with
thresholds compared against `b` itself; for `b < 1024` the unit is "B" and
the value is the raw byte count to two decimals. -/
theorem printSize_printUnit_scaling :
    (∀ b : ℕ, b < 2 ^ 63 - 1 →
      printUnit b = (specLargestUnit (floatOfNat b)).2
      ∧ printSize b = fmtF2 (floatOfNat b / (specLargestUnit (floatOfNat b)).1))
    ∧ (∀ b : ℕ, b < 2 ^ 53 → floatOfNat b = (b : ℚ))
    ∧ (∀ b : ℕ, b < 1024 → printUnit b = "B" ∧ printSize b = Nat.repr b ++ ".00") := by
  have hexact53 : ∀ b : ℕ, b < 2 ^ 53 → floatOfNat b = (b : ℚ) := by
    intro b hb
    apply floatRound_id _ b 0 hb
    rw [zpow_zero, mul_one]
  have hmain : ∀ b : ℕ, b < 2 ^ 63 - 1 →
      printUnit b = (specLargestUnit (floatOfNat b)).2
      ∧ printSize b = fmtF2 (floatOfNat b / (specLargestUnit (floatOfNat b)).1) := by
    intro b hb
    obtain ⟨m, t, hm, hrep⟩ := floatRound_rep (b : ℚ) (by positivity)
      (sizeOK_natCast b (by omega))
    have hguard : ¬ 2 ^ 63 - 1 ≤ b := by omega
    have h := unit_size_spec (floatOfNat b) m t hm hrep
    exact ⟨by rw [printUnit, if_neg hguard]; exact h.1,
      by rw [printSize, if_neg hguard]; exact h.2⟩
  refine ⟨hmain, hexact53, ?_⟩
  intro b hb
  have hex : floatOfNat b = (b : ℚ) := hexact53 b (by omega)
  obtain ⟨hu, hs⟩ := hmain b (by omega)
  have hb' : (b : ℚ) < 1024 := by exact_mod_cast hb
  have hvKB : ¬ KB ≤ (b : ℚ) := by
    rw [show (KB : ℚ) = 1024 by norm_num [KB]]
    linarith
  have hvMB : ¬ MB ≤ (b : ℚ) := fun h => hvKB (le_trans (by norm_num [KB, MB]) h)
  have hvGB : ¬ GB ≤ (b : ℚ) := fun h => hvKB (le_trans (by norm_num [KB, GB]) h)
  have hvTB : ¬ TB ≤ (b : ℚ) := fun h => hvKB (le_trans (by norm_num [KB, TB]) h)
  have hvPB : ¬ PB ≤ (b : ℚ) := fun h => hvKB (le_trans (by norm_num [KB, PB]) h)
  have hvEB : ¬ EB ≤ (b : ℚ) := fun h => hvKB (le_trans (by norm_num [KB, EB]) h)
  have hvZB : ¬ ZB ≤ (b : ℚ) := fun h => hvKB (le_trans (by norm_num [KB, ZB]) h)
  have hvYB : ¬ YB ≤ (b : ℚ) := fun h => hvKB (le_trans (by norm_num [KB, YB]) h)
  have hspecB : specLargestUnit ((b : ℚ)) = (1, "B") := by
    by_cases h1 : (1 : ℚ) ≤ (b : ℚ) <;>
      simp [specLargestUnit, unitsAscending, h1, hvKB, hvMB, hvGB, hvTB, hvPB,
        hvEB, hvZB, hvYB]
  constructor
  · rw [hu, hex, hspecB]
  · rw [hs, hex, hspecB, show ((1 : ℚ), "B").1 = (1 : ℚ) from rfl, div_one,
      fmtF2_natCast]

/-- C3 witness. -/
theorem printSize_printUnit_scaling_w :
    (5 : ℕ) < 1024 ∧ printUnit 5 = "B" ∧ printSize 5 = Nat.repr 5 ++ ".00" ∧
    (2048 : ℕ) < 2 ^ 63 - 1 ∧ printUnit 2048 = (specLargestUnit (floatOfNat 2048)).2 :=
  ⟨by decide, (printSize_printUnit_scaling.2.2 5 (by decide)).1,
    (printSize_printUnit_scaling.2.2 5 (by decide)).2, by decide,
    (printSize_printUnit_scaling.1 2048 (by decide)).1⟩
